import Mathlib

/-!
# Water-sort puzzle solver: a shallow embedding, verified

This file embeds the water-sort puzzle solver (a generic depth-first search
engine over a state/action graph, plus the puzzle-specific state model) into
Lean and proves the specification's claims about it.

Conventions of the embedding:
* A tube is a `List Color` ordered bottom-to-top (index 0 is the bottom, the
  last element is the top), exactly like the Python lists of the source.
* Python's color labels are strings; `Color` is `String`.
* Tube indices inside an action are `Int`, so that the source's rejection of
  negative indices in `is_valid_action` is represented faithfully.
* Fallible operations (Python `raise`) return `Option`; `none` is the error.
* Python's mutable visited-set and path buffer of the search engine are
  threaded explicitly through the recursion; the engine is given fuel, and
  running out of fuel is the distinguishable result `none`.
-/

abbrev Color := String

/-- An action of the puzzle: pour water from tube `from_tube` into tube
`to_tube` (source `WSPAction`). Indices are integers, as in the source. -/
structure WSPAction where
  from_tube : Int
  to_tube : Int
deriving DecidableEq, Repr

/-- A state of the puzzle: the list of tubes (each bottom-to-top) and the
shared maximum tube capacity (source `WSPState`). -/
structure WSPState where
  tubes : List (List Color)
  max_tube_capacity : Nat
deriving DecidableEq, Repr

namespace WSPState

/-- Source `WSPState.is_valid_action`: an action is valid when both indices
are in range, the source tube is non-empty, the destination tube is below
the maximum capacity, and the destination is empty or its top color equals
the source's top color.  Note that the source does NOT require the two
indices to be different. -/
def is_valid_action (s : WSPState) (a : WSPAction) : Bool :=
  if a.from_tube < 0 ∨ (s.tubes.length : Int) ≤ a.from_tube ∨
      a.to_tube < 0 ∨ (s.tubes.length : Int) ≤ a.to_tube then false
  else if s.tubes.getD a.from_tube.toNat [] = [] then false
  else if s.max_tube_capacity ≤ (s.tubes.getD a.to_tube.toNat []).length then false
  else if s.tubes.getD a.to_tube.toNat [] ≠ [] ∧
      (s.tubes.getD a.to_tube.toNat []).getLast? ≠
        (s.tubes.getD a.from_tube.toNat []).getLast? then false
  else true

/-- Source `WSPState.is_goal`: every tube is empty, or has a single distinct
color (`len(set(tube)) > 1` fails) and is not strictly below the capacity. -/
def is_goal (s : WSPState) : Bool :=
  s.tubes.all fun tube =>
    if tube = [] then true
    else if 1 < tube.dedup.length then false
    else if tube.length < s.max_tube_capacity ∧ 0 < tube.length then false
    else true

/-- The number of contiguous units of the top color at the top of a tube
(the counting loop of source `WSPState.apply_action`, which walks the list
from its end while the color equals the top color). -/
def topRunLength (t : List Color) : Nat :=
  match t.getLast? with
  | none => 0
  | some top_color => (t.reverse.takeWhile (fun x => x == top_color)).length

/-- The pouring loop of source `WSPState.apply_action`: `n` times, pop the
top of the source tube and push it on the destination tube.  (The source
never runs dry here: the amount poured is at most the source's length.) -/
def pour : Nat → List Color → List Color → List Color × List Color
  | 0, ft, tt => (ft, tt)
  | n + 1, ft, tt =>
    match ft.getLast? with
    | none => (ft, tt)
    | some c => pour n ft.dropLast (tt ++ [c])

/-- Source `WSPState.apply_action`: re-validate the action (an invalid action
raises, i.e. returns `none`), then move `min(top run length, capacity - fill
of destination)` units from the top of the source tube to the top of the
destination tube.  When the two indices coincide, the source's `from_tube`
and `to_tube` alias the same Python list, and every `append(pop())` pair is
a net no-op, so the state is returned unchanged. -/
def apply_action (s : WSPState) (a : WSPAction) : Option WSPState :=
  if s.is_valid_action a = true then
    let fi := a.from_tube.toNat
    let ti := a.to_tube.toNat
    if fi = ti then
      some ⟨s.tubes, s.max_tube_capacity⟩
    else
      let from_tube := s.tubes.getD fi []
      let to_tube := s.tubes.getD ti []
      let count := topRunLength from_tube
      let available_space := s.max_tube_capacity - to_tube.length
      let move_amount := min count available_space
      let res := pour move_amount from_tube to_tube
      some ⟨(s.tubes.set fi res.1).set ti res.2, s.max_tube_capacity⟩
  else none

/-- Source `WSPState.get_possible_actions`: for every ordered pair of
distinct indices, in lexicographic loop order, include the action iff it is
valid. -/
def get_possible_actions (s : WSPState) : List WSPAction :=
  (List.range s.tubes.length).flatMap fun from_idx =>
    (List.range s.tubes.length).filterMap fun to_idx =>
      if from_idx = to_idx then none
      else
        let action : WSPAction := ⟨(from_idx : Int), (to_idx : Int)⟩
        if s.is_valid_action action then some action else none

/-- The order in which Python compares tubes (tuples of strings):
lexicographic on the tubes, with strings compared codepoint-wise, i.e.
lexicographically on their character data. -/
def tubeLE (t1 t2 : List Color) : Prop :=
  t1.map String.data ≤ t2.map String.data

instance : DecidableRel tubeLE := fun t1 t2 =>
  inferInstanceAs (Decidable (t1.map String.data ≤ t2.map String.data))

instance : IsTotal (List Color) tubeLE :=
  ⟨fun t1 t2 => le_total (t1.map String.data) (t2.map String.data)⟩

instance : IsTrans (List Color) tubeLE :=
  ⟨fun _ _ _ h1 h2 => le_trans h1 h2⟩

instance : IsAntisymm (List Color) tubeLE :=
  ⟨fun _ _ h1 h2 =>
    List.map_injective_iff.mpr (fun _ _ hab => String.ext hab) (le_antisymm h1 h2)⟩

/-- The canonical form used by source `WSPState.__eq__` and
`WSPState.__hash__`: the list of tubes sorted (by content, in Python's
tuple-of-strings order). -/
def sortTubes (ts : List (List Color)) : List (List Color) :=
  ts.insertionSort tubeLE

/-- Source `WSPState.__eq__`: equal tube counts, then equality of the sorted
tube lists (tube order is irrelevant; the capacity is not compared). -/
def eq (s1 s2 : WSPState) : Bool :=
  if s1.tubes.length ≠ s2.tubes.length then false
  else if sortTubes s1.tubes = sortTubes s2.tubes then true
  else false

/-- Source `WSPState.__hash__` computes `hash(tuple(sorted_tubes))`: a fixed
function of this key, so states with equal keys hash equally. -/
def hash_key (s : WSPState) : List (List Color) :=
  sortTubes s.tubes

/-- The number of units that `apply_action` moves for action `a` in state
`s`: the minimum of the top-run length of the source and of the available
space (headroom) of the destination. -/
def moveAmount (s : WSPState) (a : WSPAction) : Nat :=
  min (topRunLength (s.tubes.getD a.from_tube.toNat []))
    (s.max_tube_capacity - (s.tubes.getD a.to_tube.toNat []).length)

end WSPState

namespace WSPState

/-! ## The pouring loop and the top run -/

lemma topRunLength_le (t : List Color) : topRunLength t ≤ t.length := by
  unfold topRunLength
  cases h : t.getLast? with
  | none => exact Nat.zero_le _
  | some c =>
    calc (t.reverse.takeWhile (fun x => x == c)).length
        ≤ t.reverse.length := (List.takeWhile_sublist _).length_le
      _ = t.length := t.length_reverse

lemma topRunLength_pos (t : List Color) (h : t ≠ []) : 0 < topRunLength t := by
  cases hr : t.reverse with
  | nil => exact absurd (List.reverse_eq_nil_iff.mp hr) h
  | cons b rest =>
    have hgl : t.getLast? = some b := by
      rw [← List.head?_reverse, hr]; rfl
    have hrw : topRunLength t = (t.reverse.takeWhile (fun x => x == b)).length := by
      unfold topRunLength; rw [hgl]
    rw [hrw, hr, List.takeWhile_cons_of_pos (by simp)]
    simp

/-- The top `k` units of a tube are all of the top color, as long as `k`
does not exceed the length of the top run. -/
lemma drop_of_le_topRunLength (t : List Color) (c : Color)
    (hc : t.getLast? = some c) (k : Nat) (hk : k ≤ topRunLength t) :
    t.drop (t.length - k) = List.replicate k c := by
  have hrun : topRunLength t = (t.reverse.takeWhile (fun x => x == c)).length := by
    unfold topRunLength; rw [hc]
  have hkr : k ≤ t.length := le_trans hk (topRunLength_le t)
  have htake : t.reverse.take k = (t.reverse.takeWhile (fun x => x == c)).take k := by
    conv_lhs => rw [← List.takeWhile_append_dropWhile (fun x => x == c) t.reverse]
    exact List.take_append_of_le_length (by rw [← hrun]; exact hk)
  have hrep : t.reverse.take k = List.replicate k c := by
    rw [List.eq_replicate_iff]
    constructor
    · rw [List.length_take, t.length_reverse]; omega
    · intro b hb
      rw [htake] at hb
      have hb' := List.mem_of_mem_take hb
      have := List.mem_takeWhile_imp hb'
      simpa using this
  have : (t.reverse.take k).reverse = t.drop (t.length - k) := by
    rw [List.take_reverse, List.reverse_reverse]
  rw [← this, hrep, List.reverse_replicate]

/-- What the pouring loop computes: it removes the last `k` units of the
source and appends them, in popping order, to the destination. -/
lemma pour_eq (k : Nat) (ft tt : List Color) (hk : k ≤ ft.length) :
    pour k ft tt = (ft.take (ft.length - k), tt ++ (ft.drop (ft.length - k)).reverse) := by
  induction k generalizing ft tt with
  | zero => simp [pour]
  | succ k ih =>
    have hft : ft ≠ [] := by
      intro h; rw [h] at hk; simp at hk
    have hgl : ft.getLast? = some (ft.getLast hft) := List.getLast?_eq_getLast ft hft
    have hlen : ft.dropLast.length = ft.length - 1 := ft.length_dropLast
    have hk' : k ≤ ft.dropLast.length := by omega
    rw [pour, hgl]
    show pour k ft.dropLast (tt ++ [ft.getLast hft]) = _
    rw [ih ft.dropLast _ hk']
    have hsplit : ft.dropLast ++ [ft.getLast hft] = ft :=
      List.dropLast_append_getLast hft
    have hlen2 : (ft.dropLast ++ [ft.getLast hft]).length = ft.length := by
      rw [hsplit]
    have h1 : ft.dropLast.take (ft.dropLast.length - k) = ft.take (ft.length - (k + 1)) := by
      rw [hlen, List.dropLast_eq_take, List.take_take]
      congr 1
      omega
    have h2 : tt ++ [ft.getLast hft] ++ (ft.dropLast.drop (ft.dropLast.length - k)).reverse
        = tt ++ (ft.drop (ft.length - (k + 1))).reverse := by
      rw [List.append_assoc]
      congr 1
      have hdrop : ft.drop (ft.length - (k + 1))
          = ft.dropLast.drop (ft.dropLast.length - k) ++ [ft.getLast hft] := by
        conv_lhs => rw [← hsplit]
        rw [List.drop_append_of_le_length (by rw [hlen2]; omega)]
        rw [hlen2]
        rw [show ft.length - (k + 1) = ft.dropLast.length - k from by omega]
      rw [hdrop, List.reverse_append]
      simp
    rw [h1, h2]

lemma getD_set_self (l : List (List Color)) (i : Nat) (hi : i < l.length)
    (x : List Color) : (l.set i x).getD i [] = x := by
  simp [List.getD_eq_getElem?_getD, List.getElem?_set_self hi]

lemma getD_set_ne (l : List (List Color)) {i j : Nat} (hij : i ≠ j)
    (x : List Color) : (l.set i x).getD j [] = l.getD j [] := by
  simp [List.getD_eq_getElem?_getD, List.getElem?_set_ne hij]

/-- For `i < l.length`, writing back the element stored at `i` changes
nothing. -/
lemma set_getD_self (l : List (List Color)) (i : Nat) (h : i < l.length) :
    l.set i (l.getD i []) = l := by
  apply List.ext_getElem?
  intro n
  by_cases hn : n = i
  · subst hn
    rw [List.getElem?_set_self h]
    simp [List.getD_eq_getElem?_getD, List.getElem?_eq_getElem h]
  · rw [List.getElem?_set_ne (by omega)]

end WSPState

namespace WSPState

/-! ## Characterizations of the goal test and the validity test -/

/-- `len(set(tube)) <= 1` says exactly that all units of the tube have the
same color. -/
lemma dedup_length_le_one_iff (t : List Color) :
    t.dedup.length ≤ 1 ↔ ∀ x ∈ t, ∀ y ∈ t, x = y := by
  constructor
  · intro h x hx y hy
    have hx' : x ∈ t.dedup := List.mem_dedup.mpr hx
    have hy' : y ∈ t.dedup := List.mem_dedup.mpr hy
    rcases hd : t.dedup with - | ⟨a, - | ⟨b, rest⟩⟩
    · rw [hd] at hx'; exact absurd hx' (List.not_mem_nil x)
    · rw [hd] at hx' hy'
      simp only [List.mem_singleton] at hx' hy'
      rw [hx', hy']
    · rw [hd] at h; simp at h
  · intro h
    rcases hd : t.dedup with - | ⟨a, - | ⟨b, rest⟩⟩
    · simp
    · simp
    · exfalso
      have hnd := t.nodup_dedup
      rw [hd] at hnd
      have ha : a ∈ t := List.mem_dedup.mp (by rw [hd]; simp)
      have hb : b ∈ t := List.mem_dedup.mp (by rw [hd]; simp)
      have hab : a = b := h a ha b hb
      rw [List.nodup_cons] at hnd
      exact hnd.1 (by rw [hab]; simp)

/-- What the source's goal test computes: every tube is empty, or is
uniformly colored and at least as long as the capacity. -/
lemma is_goal_iff (s : WSPState) :
    s.is_goal = true ↔
      ∀ t ∈ s.tubes,
        t = [] ∨ (s.max_tube_capacity ≤ t.length ∧ ∀ x ∈ t, ∀ y ∈ t, x = y) := by
  unfold is_goal
  rw [List.all_eq_true]
  constructor
  · intro h t ht
    have := h t ht
    by_cases h0 : t = []
    · exact Or.inl h0
    · right
      rw [if_neg h0] at this
      by_cases h1 : 1 < t.dedup.length
      · rw [if_pos h1] at this; cases this
      · rw [if_neg h1] at this
        refine ⟨?_, (dedup_length_le_one_iff t).mp (by omega)⟩
        have hpos : 0 < t.length := List.length_pos.mpr h0
        by_cases h2 : t.length < s.max_tube_capacity ∧ 0 < t.length
        · rw [if_pos h2] at this; cases this
        · push_neg at h2
          omega
  · intro h t ht
    rcases h t ht with h0 | ⟨hcap, huni⟩
    · simp [h0]
    · by_cases h0 : t = []
      · simp [h0]
      · rw [if_neg h0,
          if_neg (by have hle := (dedup_length_le_one_iff t).mpr huni; omega),
          if_neg (by omega)]

/-- What the source's validity test computes, positively: both indices in
range, non-empty source, destination strictly below capacity, destination
empty or top colors equal. -/
lemma is_valid_action_iff (s : WSPState) (a : WSPAction) :
    s.is_valid_action a = true ↔
      0 ≤ a.from_tube ∧ a.from_tube < (s.tubes.length : Int) ∧
      0 ≤ a.to_tube ∧ a.to_tube < (s.tubes.length : Int) ∧
      s.tubes.getD a.from_tube.toNat [] ≠ [] ∧
      (s.tubes.getD a.to_tube.toNat []).length < s.max_tube_capacity ∧
      (s.tubes.getD a.to_tube.toNat [] = [] ∨
        (s.tubes.getD a.to_tube.toNat []).getLast? =
          (s.tubes.getD a.from_tube.toNat []).getLast?) := by
  unfold is_valid_action
  split_ifs with h1 h2 h3 h4
  · refine iff_of_false (by simp) ?_
    rintro ⟨c1, c2, c3, c4, -⟩
    rcases h1 with h | h | h | h <;> omega
  · refine iff_of_false (by simp) ?_
    rintro ⟨-, -, -, -, hft, -⟩
    exact hft h2
  · refine iff_of_false (by simp) ?_
    rintro ⟨-, -, -, -, -, htt, -⟩
    omega
  · refine iff_of_false (by simp) ?_
    rintro ⟨-, -, -, -, -, -, hor⟩
    rcases hor with h | h
    · exact h4.1 h
    · exact h4.2 h
  · push_neg at h1 h4
    refine iff_of_true rfl ⟨by omega, by omega, by omega, by omega, h2, by omega, ?_⟩
    by_cases htt : s.tubes.getD a.to_tube.toNat [] = []
    · exact Or.inl htt
    · exact Or.inr (h4 htt)

/-- Full characterization of `apply_action` on a valid action. -/
lemma apply_action_spec (s : WSPState) (a : WSPAction)
    (h : s.is_valid_action a = true) :
    (a.from_tube.toNat = a.to_tube.toNat →
      s.apply_action a = some ⟨s.tubes, s.max_tube_capacity⟩) ∧
    (a.from_tube.toNat ≠ a.to_tube.toNat →
      ∃ c, (s.tubes.getD a.from_tube.toNat []).getLast? = some c ∧
        s.apply_action a = some
          ⟨(s.tubes.set a.from_tube.toNat
              ((s.tubes.getD a.from_tube.toNat []).take
                ((s.tubes.getD a.from_tube.toNat []).length - s.moveAmount a))).set
              a.to_tube.toNat
              (s.tubes.getD a.to_tube.toNat [] ++ List.replicate (s.moveAmount a) c),
            s.max_tube_capacity⟩) := by
  obtain ⟨h1, h2, h3, h4, h5, h6, h7⟩ := (is_valid_action_iff s a).mp h
  constructor
  · intro heq
    unfold apply_action
    rw [if_pos h]
    dsimp only
    rw [if_pos heq]
  · intro hne
    obtain ⟨c, hc⟩ := List.getLast?_isSome.mpr h5 |> Option.isSome_iff_exists.mp
    refine ⟨c, hc, ?_⟩
    unfold apply_action
    rw [if_pos h]
    dsimp only
    rw [if_neg hne]
    have hkrun : s.moveAmount a ≤ topRunLength (s.tubes.getD a.from_tube.toNat []) :=
      min_le_left _ _
    have hklen : s.moveAmount a ≤ (s.tubes.getD a.from_tube.toNat []).length :=
      le_trans hkrun (topRunLength_le _)
    rw [show (min (topRunLength (s.tubes.getD a.from_tube.toNat []))
        (s.max_tube_capacity - (s.tubes.getD a.to_tube.toNat []).length))
        = s.moveAmount a from rfl]
    rw [pour_eq _ _ _ hklen]
    rw [drop_of_le_topRunLength _ c hc _ hkrun, List.reverse_replicate]

end WSPState

open WSPState in
/-- Modelled from the claim of C2 (spec "goal test"): every container empty,
or with length exactly equal to the capacity and uniformly colored. -/
def goalSpec (s : WSPState) : Prop :=
  ∀ t ∈ s.tubes,
    t = [] ∨ (t.length = s.max_tube_capacity ∧ ∀ x ∈ t, ∀ y ∈ t, x = y)

instance (s : WSPState) : Decidable (goalSpec s) := by
  unfold goalSpec; infer_instance

open WSPState in
/-- Modelled from the claim of C3 (spec "legality"): invalid exactly when an
index is out of range, the source is empty, the destination is at maximum
capacity (exactly full), or the destination is non-empty with a different
top color. -/
def validSpec (s : WSPState) (a : WSPAction) : Prop :=
  ¬ (a.from_tube < 0 ∨ (s.tubes.length : Int) ≤ a.from_tube ∨
     a.to_tube < 0 ∨ (s.tubes.length : Int) ≤ a.to_tube ∨
     s.tubes.getD a.from_tube.toNat [] = [] ∨
     (s.tubes.getD a.to_tube.toNat []).length = s.max_tube_capacity ∨
     (s.tubes.getD a.to_tube.toNat [] ≠ [] ∧
       (s.tubes.getD a.to_tube.toNat []).getLast? ≠
         (s.tubes.getD a.from_tube.toNat []).getLast?))

instance (s : WSPState) (a : WSPAction) : Decidable (validSpec s a) := by
  unfold validSpec; infer_instance

/-- C2, counterexample: on the (constructible) state with a single uniformly
red tube of length 5 and capacity 4, `is_goal` returns `true`, but the
claim's condition (length equal to the capacity) fails, so the claimed
equivalence is false. -/
theorem spec_C2_counterexample :
    (WSPState.mk [["r", "r", "r", "r", "r"]] 4).is_goal = true ∧
      ¬ goalSpec (WSPState.mk [["r", "r", "r", "r", "r"]] 4) :=
  ⟨by decide, by decide⟩

/-- C2, amended: `is_goal S` is true iff every container of `S` is empty or
(its length is AT LEAST the maximum capacity and all its units have the same
color); a non-empty, non-full, uniformly-colored container makes `is_goal`
false. -/
theorem spec_C2_amended (s : WSPState) :
    s.is_goal = true ↔
      ∀ t ∈ s.tubes,
        t = [] ∨ (s.max_tube_capacity ≤ t.length ∧ ∀ x ∈ t, ∀ y ∈ t, x = y) :=
  WSPState.is_goal_iff s

/-- C3, counterexample: with capacity 4, a destination tube of length 5 is
not "at maximum capacity" (its length differs from 4), and its top color
matches the source, so the claim says the action is valid; the code's
`is_valid_action` (which tests `len(to_tube) >= capacity`) returns `false`. -/
theorem spec_C3_counterexample :
    (WSPState.mk [["r"], ["r", "r", "r", "r", "r"]] 4).is_valid_action ⟨0, 1⟩ = false ∧
      validSpec (WSPState.mk [["r"], ["r", "r", "r", "r", "r"]] 4) ⟨0, 1⟩ :=
  ⟨by decide, by decide⟩

/-- C3, amended: `is_valid_action` returns false iff either index is out of
the container-index range, or the source container is empty, or the
destination container is AT OR ABOVE the maximum capacity, or the
destination is non-empty and its topmost color differs from the source's
topmost color; it returns true in all other cases. -/
theorem spec_C3_amended (s : WSPState) (a : WSPAction) :
    s.is_valid_action a = true ↔
      ¬ (a.from_tube < 0 ∨ (s.tubes.length : Int) ≤ a.from_tube ∨
         a.to_tube < 0 ∨ (s.tubes.length : Int) ≤ a.to_tube ∨
         s.tubes.getD a.from_tube.toNat [] = [] ∨
         s.max_tube_capacity ≤ (s.tubes.getD a.to_tube.toNat []).length ∨
         (s.tubes.getD a.to_tube.toNat [] ≠ [] ∧
           (s.tubes.getD a.to_tube.toNat []).getLast? ≠
             (s.tubes.getD a.from_tube.toNat []).getLast?)) := by
  rw [WSPState.is_valid_action_iff]
  constructor
  · rintro ⟨c1, c2, c3, c4, c5, c6, c7⟩
    rintro (h | h | h | h | h | h | ⟨h1, h2⟩)
    · omega
    · omega
    · omega
    · omega
    · exact c5 h
    · omega
    · rcases c7 with h' | h'
      · exact h1 h'
      · exact h2 h'
  · intro h
    push_neg at h
    obtain ⟨h1, h2, h3, h4, h5, h6, h7⟩ := h
    refine ⟨by omega, by omega, by omega, by omega, h5, by omega, ?_⟩
    by_cases htt : s.tubes.getD a.to_tube.toNat [] = []
    · exact Or.inl htt
    · exact Or.inr (h7 htt)

/-- C7: `apply_action` errors (returns `none`) exactly when the action fails
`is_valid_action`; the invalid action is never silently executed.  (In this
pure embedding no state is mutated on the error path, matching the source,
which raises before copying or touching any tube.) -/
theorem spec_C7 (s : WSPState) (a : WSPAction) :
    s.apply_action a = none ↔ s.is_valid_action a = false := by
  unfold WSPState.apply_action
  by_cases h : s.is_valid_action a = true
  · rw [if_pos h]
    dsimp only
    split <;> simp [h]
  · rw [if_neg h]
    simp only [Bool.not_eq_true] at h
    simp [h]

/-- C4: applying a valid action yields a new state in which exactly
`min(run_length, headroom)` units (of the source's top color) moved from the
top of the source to the top of the destination; all other containers and
the capacity scalar are unchanged.  When the source and destination indices
coincide (the source's aliased-list case, where units are popped and pushed
back one at a time), the state is unchanged. -/
theorem spec_C4 (s : WSPState) (a : WSPAction) (h : s.is_valid_action a = true) :
    ∃ s', s.apply_action a = some s' ∧
      s'.max_tube_capacity = s.max_tube_capacity ∧
      s'.tubes.length = s.tubes.length ∧
      (∀ m : Nat, m ≠ a.from_tube.toNat → m ≠ a.to_tube.toNat →
        s'.tubes.getD m [] = s.tubes.getD m []) ∧
      (a.from_tube ≠ a.to_tube →
        ∃ c, (s.tubes.getD a.from_tube.toNat []).getLast? = some c ∧
          s'.tubes.getD a.from_tube.toNat [] =
            (s.tubes.getD a.from_tube.toNat []).take
              ((s.tubes.getD a.from_tube.toNat []).length - s.moveAmount a) ∧
          s'.tubes.getD a.to_tube.toNat [] =
            s.tubes.getD a.to_tube.toNat [] ++ List.replicate (s.moveAmount a) c) ∧
      (a.from_tube = a.to_tube → s' = s) := by
  obtain ⟨hv1, hv2, hv3, hv4, hv5, hv6, hv7⟩ := (WSPState.is_valid_action_iff s a).mp h
  obtain ⟨hsame, hdiff⟩ := WSPState.apply_action_spec s a h
  by_cases hft : a.from_tube.toNat = a.to_tube.toNat
  · have hint : a.from_tube = a.to_tube := by omega
    refine ⟨⟨s.tubes, s.max_tube_capacity⟩, hsame hft, rfl, rfl, fun m _ _ => rfl, ?_, ?_⟩
    · intro hne; exact absurd hint hne
    · intro _; rfl
  · have hfi : a.from_tube.toNat < s.tubes.length := by omega
    have hti : a.to_tube.toNat < s.tubes.length := by omega
    obtain ⟨c, hc, happ⟩ := hdiff hft
    refine ⟨_, happ, rfl, by simp, ?_, ?_, ?_⟩
    · intro m hm1 hm2
      dsimp only
      rw [WSPState.getD_set_ne _ (Ne.symm hm2), WSPState.getD_set_ne _ (Ne.symm hm1)]
    · intro _
      refine ⟨c, hc, ?_, ?_⟩
      · dsimp only
        rw [WSPState.getD_set_ne _ (Ne.symm hft), WSPState.getD_set_self _ _ hfi]
      · dsimp only
        rw [WSPState.getD_set_self _ _ (by simpa using hti)]
    · intro hint
      exact absurd (by omega : a.from_tube.toNat = a.to_tube.toNat) hft

/-- C4 witness: a concrete valid pour of two blue units out of
`[[r, b, b], [b]]`. -/
theorem spec_C4_witness :
    ∃ s', (WSPState.mk [["r", "b", "b"], ["b"]] 4).apply_action ⟨0, 1⟩ = some s' ∧
      s'.max_tube_capacity = (WSPState.mk [["r", "b", "b"], ["b"]] 4).max_tube_capacity ∧
      s'.tubes.length = (WSPState.mk [["r", "b", "b"], ["b"]] 4).tubes.length ∧
      (∀ m : Nat, m ≠ (0 : Int).toNat → m ≠ (1 : Int).toNat →
        s'.tubes.getD m [] = (WSPState.mk [["r", "b", "b"], ["b"]] 4).tubes.getD m []) ∧
      ((0 : Int) ≠ (1 : Int) →
        ∃ c, ((WSPState.mk [["r", "b", "b"], ["b"]] 4).tubes.getD (0 : Int).toNat []).getLast?
            = some c ∧
          s'.tubes.getD (0 : Int).toNat [] =
            ((WSPState.mk [["r", "b", "b"], ["b"]] 4).tubes.getD (0 : Int).toNat []).take
              (((WSPState.mk [["r", "b", "b"], ["b"]] 4).tubes.getD (0 : Int).toNat []).length
                - (WSPState.mk [["r", "b", "b"], ["b"]] 4).moveAmount ⟨0, 1⟩) ∧
          s'.tubes.getD (1 : Int).toNat [] =
            (WSPState.mk [["r", "b", "b"], ["b"]] 4).tubes.getD (1 : Int).toNat [] ++
              List.replicate ((WSPState.mk [["r", "b", "b"], ["b"]] 4).moveAmount ⟨0, 1⟩) c) ∧
      ((0 : Int) = (1 : Int) → s' = WSPState.mk [["r", "b", "b"], ["b"]] 4) :=
  spec_C4 (WSPState.mk [["r", "b", "b"], ["b"]] 4) ⟨0, 1⟩ (by decide)

/-- The total multiset of colored units of a state, summed over all
containers. -/
def unitsMultiset (s : WSPState) : Multiset Color :=
  (s.tubes.map (fun (t : List Color) => (t : Multiset Color))).sum

/-- Replacing the entry at index `i` changes the summed multiset by removing
the old entry's units and adding the new entry's units. -/
lemma units_set (l : List (List Color)) (i : Nat) (hi : i < l.length)
    (x : List Color) :
    ((l.set i x).map (fun (t : List Color) => (t : Multiset Color))).sum + (l.getD i [] : Multiset Color)
      = (l.map (fun (t : List Color) => (t : Multiset Color))).sum + (x : Multiset Color) := by
  induction l generalizing i with
  | nil => simp at hi
  | cons hd tl ih =>
    cases i with
    | zero =>
      simp only [List.set_cons_zero, List.map_cons, List.sum_cons, List.getD_cons_zero]
      abel
    | succ i =>
      have hi' : i < tl.length := by simpa using hi
      simp only [List.set_cons_succ, List.map_cons, List.sum_cons, List.getD_cons_succ]
      rw [add_assoc, ih i hi', ← add_assoc]

/-- C10: applying a valid action preserves the number of containers and the
total multiset of colored units; no unit is created or destroyed by a
pour. -/
theorem spec_C10 (s : WSPState) (a : WSPAction) (h : s.is_valid_action a = true) :
    ∃ s', s.apply_action a = some s' ∧
      s'.tubes.length = s.tubes.length ∧ unitsMultiset s' = unitsMultiset s := by
  obtain ⟨hv1, hv2, hv3, hv4, hv5, hv6, hv7⟩ := (WSPState.is_valid_action_iff s a).mp h
  obtain ⟨hsame, hdiff⟩ := WSPState.apply_action_spec s a h
  by_cases hft : a.from_tube.toNat = a.to_tube.toNat
  · exact ⟨⟨s.tubes, s.max_tube_capacity⟩, hsame hft, rfl, rfl⟩
  · have hfi : a.from_tube.toNat < s.tubes.length := by omega
    have hti : a.to_tube.toNat < s.tubes.length := by omega
    obtain ⟨c, hc, happ⟩ := hdiff hft
    refine ⟨_, happ, by simp, ?_⟩
    have hkrun : s.moveAmount a ≤ WSPState.topRunLength (s.tubes.getD a.from_tube.toNat []) :=
      min_le_left _ _
    have hsplit : (s.tubes.getD a.from_tube.toNat []).take
          ((s.tubes.getD a.from_tube.toNat []).length - s.moveAmount a) ++
          List.replicate (s.moveAmount a) c
        = s.tubes.getD a.from_tube.toNat [] := by
      conv_rhs => rw [← List.take_append_drop
        ((s.tubes.getD a.from_tube.toNat []).length - s.moveAmount a)
        (s.tubes.getD a.from_tube.toNat [])]
      rw [WSPState.drop_of_le_topRunLength _ c hc _ hkrun]
    unfold unitsMultiset
    have e2 := units_set s.tubes a.from_tube.toNat hfi
      ((s.tubes.getD a.from_tube.toNat []).take
        ((s.tubes.getD a.from_tube.toNat []).length - s.moveAmount a))
    have e1 := units_set (s.tubes.set a.from_tube.toNat
        ((s.tubes.getD a.from_tube.toNat []).take
          ((s.tubes.getD a.from_tube.toNat []).length - s.moveAmount a)))
      a.to_tube.toNat (by simpa using hti)
      (s.tubes.getD a.to_tube.toNat [] ++ List.replicate (s.moveAmount a) c)
    rw [WSPState.getD_set_ne _ hft] at e1
    apply add_right_cancel (b := (s.tubes.getD a.to_tube.toNat [] : Multiset Color))
    apply add_right_cancel (b := (s.tubes.getD a.from_tube.toNat [] : Multiset Color))
    calc (((s.tubes.set a.from_tube.toNat
            ((s.tubes.getD a.from_tube.toNat []).take
              ((s.tubes.getD a.from_tube.toNat []).length - s.moveAmount a))).set
              a.to_tube.toNat
              (s.tubes.getD a.to_tube.toNat [] ++ List.replicate (s.moveAmount a) c)).map
            (fun (t : List Color) => (t : Multiset Color))).sum +
          (s.tubes.getD a.to_tube.toNat [] : Multiset Color) +
          (s.tubes.getD a.from_tube.toNat [] : Multiset Color)
        = ((s.tubes.set a.from_tube.toNat
            ((s.tubes.getD a.from_tube.toNat []).take
              ((s.tubes.getD a.from_tube.toNat []).length - s.moveAmount a))).map
            (fun (t : List Color) => (t : Multiset Color))).sum +
          ((s.tubes.getD a.to_tube.toNat [] ++ List.replicate (s.moveAmount a) c :
            List Color) : Multiset Color) +
          (s.tubes.getD a.from_tube.toNat [] : Multiset Color) := by rw [e1]
      _ = ((s.tubes.set a.from_tube.toNat
            ((s.tubes.getD a.from_tube.toNat []).take
              ((s.tubes.getD a.from_tube.toNat []).length - s.moveAmount a))).map
            (fun (t : List Color) => (t : Multiset Color))).sum +
          (s.tubes.getD a.from_tube.toNat [] : Multiset Color) +
          ((s.tubes.getD a.to_tube.toNat [] ++ List.replicate (s.moveAmount a) c :
            List Color) : Multiset Color) := by
            rw [add_assoc, add_assoc]
            congr 1
            rw [add_comm]
      _ = (s.tubes.map (fun (t : List Color) => (t : Multiset Color))).sum +
          (((s.tubes.getD a.from_tube.toNat []).take
              ((s.tubes.getD a.from_tube.toNat []).length - s.moveAmount a) :
            List Color) : Multiset Color) +
          ((s.tubes.getD a.to_tube.toNat [] ++ List.replicate (s.moveAmount a) c :
            List Color) : Multiset Color) := by rw [e2]
      _ = (s.tubes.map (fun (t : List Color) => (t : Multiset Color))).sum +
          (s.tubes.getD a.to_tube.toNat [] : Multiset Color) +
          (s.tubes.getD a.from_tube.toNat [] : Multiset Color) := by
            rw [add_assoc, add_assoc]
            congr 1
            conv_rhs => rw [← hsplit]
            rw [Multiset.coe_add, Multiset.coe_add]
            exact Multiset.coe_eq_coe.mpr (List.perm_append_comm_assoc _ _ _)

/-- C10 witness: the concrete pour of `spec_C4_witness` preserves the unit
multiset. -/
theorem spec_C10_witness :
    ∃ s', (WSPState.mk [["r", "b", "b"], ["b"]] 4).apply_action ⟨0, 1⟩ = some s' ∧
      s'.tubes.length = (WSPState.mk [["r", "b", "b"], ["b"]] 4).tubes.length ∧
      unitsMultiset s' = unitsMultiset (WSPState.mk [["r", "b", "b"], ["b"]] 4) :=
  spec_C10 (WSPState.mk [["r", "b", "b"], ["b"]] 4) ⟨0, 1⟩ (by decide)

namespace WSPState

/-- Canonical equality is reflexive. -/
lemma eq_self (s : WSPState) : eq s s = true := by
  unfold eq
  simp

lemma getLast?_append_replicate (tt : List Color) (c : Color) (k : Nat)
    (hk : 0 < k) : (tt ++ List.replicate k c).getLast? = some c := by
  cases k with
  | zero => omega
  | succ k =>
    rw [List.replicate_succ', ← List.append_assoc, List.getLast?_concat]

end WSPState

/-- C8, counterexample: starting from `[[r], [r]]` (capacity 4), the pour
`0 → 1` gives `[[], [r, r]]`; the reverse pour `1 → 0` is valid there, but
it moves BOTH red units back (the run grew), yielding `[[r, r], []]`, which
is not canonically equal to the original state.  The claimed round-trip
property is therefore false. -/
theorem spec_C8_counterexample :
    (WSPState.mk [["r"], ["r"]] 4).is_valid_action ⟨0, 1⟩ = true ∧
    (WSPState.mk [["r"], ["r"]] 4).apply_action ⟨0, 1⟩ =
      some (WSPState.mk [[], ["r", "r"]] 4) ∧
    (WSPState.mk [[], ["r", "r"]] 4).is_valid_action ⟨1, 0⟩ = true ∧
    (WSPState.mk [[], ["r", "r"]] 4).apply_action ⟨1, 0⟩ =
      some (WSPState.mk [["r", "r"], []] 4) ∧
    WSPState.eq (WSPState.mk [["r", "r"], []] 4) (WSPState.mk [["r"], ["r"]] 4) = false := by
  refine ⟨by decide, by decide, by decide, by decide, by decide⟩

/-- C8, amended: for a valid action `a` on `S`, if the reverse pour is valid
in `apply_action(S, a)` AND it moves back exactly as many units as `a`
moved, then applying the reverse yields a state canonically equal to `S`. -/
theorem spec_C8_amended (s s' : WSPState) (a : WSPAction)
    (h : s.is_valid_action a = true)
    (happ : s.apply_action a = some s')
    (hrev : s'.is_valid_action ⟨a.to_tube, a.from_tube⟩ = true)
    (hamt : s'.moveAmount ⟨a.to_tube, a.from_tube⟩ = s.moveAmount a) :
    ∃ s'', s'.apply_action ⟨a.to_tube, a.from_tube⟩ = some s'' ∧
      WSPState.eq s'' s = true := by
  obtain ⟨hv1, hv2, hv3, hv4, hv5, hv6, hv7⟩ := (WSPState.is_valid_action_iff s a).mp h
  obtain ⟨hsame, hdiff⟩ := WSPState.apply_action_spec s a h
  obtain ⟨hsame', hdiff'⟩ :=
    WSPState.apply_action_spec s' ⟨a.to_tube, a.from_tube⟩ hrev
  by_cases hft : a.from_tube.toNat = a.to_tube.toNat
  · rw [hsame hft] at happ
    have hs' := Option.some.inj happ
    refine ⟨⟨s'.tubes, s'.max_tube_capacity⟩, hsame' hft.symm, ?_⟩
    rw [← hs']
    exact WSPState.eq_self s
  · have hfi : a.from_tube.toNat < s.tubes.length := by omega
    have hti : a.to_tube.toNat < s.tubes.length := by omega
    obtain ⟨c, hc, happ2⟩ := hdiff hft
    rw [happ2] at happ
    have hs' := Option.some.inj happ
    have hrunpos : 0 < WSPState.topRunLength (s.tubes.getD a.from_tube.toNat []) :=
      WSPState.topRunLength_pos _ hv5
    have hkpos : 0 < s.moveAmount a := lt_min hrunpos (by omega)
    have hkrun : s.moveAmount a ≤
        WSPState.topRunLength (s.tubes.getD a.from_tube.toNat []) :=
      min_le_left _ _
    obtain ⟨c', hc', happ3⟩ := hdiff' (Ne.symm hft)
    have hgdti : s'.tubes.getD a.to_tube.toNat [] =
        s.tubes.getD a.to_tube.toNat [] ++ List.replicate (s.moveAmount a) c := by
      rw [← hs']
      dsimp only
      rw [WSPState.getD_set_self _ _ (by simpa using hti)]
    have hgdfi : s'.tubes.getD a.from_tube.toNat [] =
        (s.tubes.getD a.from_tube.toNat []).take
          ((s.tubes.getD a.from_tube.toNat []).length - s.moveAmount a) := by
      rw [← hs']
      dsimp only
      rw [WSPState.getD_set_ne _ (Ne.symm hft), WSPState.getD_set_self _ _ hfi]
    have hc'' : c' = c := by
      have hlast := hc'
      rw [show (⟨a.to_tube, a.from_tube⟩ : WSPAction).from_tube.toNat
          = a.to_tube.toNat from rfl] at hlast
      rw [hgdti, WSPState.getLast?_append_replicate _ _ _ hkpos] at hlast
      exact (Option.some.inj hlast).symm
    have htake : (s.tubes.getD a.to_tube.toNat [] ++
          List.replicate (s.moveAmount a) c).take
          ((s.tubes.getD a.to_tube.toNat [] ++
            List.replicate (s.moveAmount a) c).length - s.moveAmount a)
        = s.tubes.getD a.to_tube.toNat [] := by
      rw [List.length_append, List.length_replicate]
      exact List.take_left' (by omega)
    have hrestore : (s.tubes.getD a.from_tube.toNat []).take
          ((s.tubes.getD a.from_tube.toNat []).length - s.moveAmount a) ++
          List.replicate (s.moveAmount a) c
        = s.tubes.getD a.from_tube.toNat [] := by
      conv_rhs => rw [← List.take_append_drop
        ((s.tubes.getD a.from_tube.toNat []).length - s.moveAmount a)
        (s.tubes.getD a.from_tube.toNat [])]
      rw [WSPState.drop_of_le_topRunLength _ c hc _ hkrun]
    refine ⟨_, happ3, ?_⟩
    dsimp only
    rw [hamt, hc'', hgdti, hgdfi, htake, hrestore, ← hs']
    dsimp only
    rw [List.set_set, List.set_comm _ _ _ (Ne.symm hft), List.set_set,
      WSPState.set_getD_self _ _ hfi, WSPState.set_getD_self _ _ hti]
    exact WSPState.eq_self s

/-- C8 amended witness: pouring the full red run of `[[r, r], []]` into the
empty tube and back restores the state. -/
theorem spec_C8_amended_witness :
    ∃ s'', (WSPState.mk [[], ["r", "r"]] 4).apply_action ⟨1, 0⟩ = some s'' ∧
      WSPState.eq s'' (WSPState.mk [["r", "r"], []] 4) = true :=
  spec_C8_amended (WSPState.mk [["r", "r"], []] 4) (WSPState.mk [[], ["r", "r"]] 4)
    ⟨0, 1⟩ (by decide) (by decide) (by decide) (by decide)

/-- C5: canonical state equality holds iff the states have the same number
of containers and identical sorted container lists; equal states have equal
hash keys (the source hashes a fixed function of the sorted tuple); and two
states whose container lists are permutations of one another are equal and
hash equally. -/
theorem spec_C5 (s1 s2 : WSPState) :
    (WSPState.eq s1 s2 = true ↔
      (s1.tubes.length = s2.tubes.length ∧
        WSPState.sortTubes s1.tubes = WSPState.sortTubes s2.tubes)) ∧
    (WSPState.eq s1 s2 = true → s1.hash_key = s2.hash_key) ∧
    (s1.tubes.Perm s2.tubes →
      WSPState.eq s1 s2 = true ∧ s1.hash_key = s2.hash_key) := by
  have hiff : WSPState.eq s1 s2 = true ↔
      (s1.tubes.length = s2.tubes.length ∧
        WSPState.sortTubes s1.tubes = WSPState.sortTubes s2.tubes) := by
    unfold WSPState.eq
    split_ifs with h1 h2
    · exact iff_of_false (by simp) (fun hx => h1 hx.1)
    · exact iff_of_true rfl ⟨not_not.mp h1, h2⟩
    · exact iff_of_false (by simp) (fun hx => h2 hx.2)
  refine ⟨hiff, ?_, ?_⟩
  · intro he
    unfold WSPState.hash_key
    exact (hiff.mp he).2
  · intro hp
    have hsort : WSPState.sortTubes s1.tubes = WSPState.sortTubes s2.tubes := by
      refine List.eq_of_perm_of_sorted ?_
        (List.sorted_insertionSort WSPState.tubeLE s1.tubes)
        (List.sorted_insertionSort WSPState.tubeLE s2.tubes)
      exact (List.perm_insertionSort WSPState.tubeLE s1.tubes).trans
        (hp.trans (List.perm_insertionSort WSPState.tubeLE s2.tubes).symm)
    exact ⟨hiff.mpr ⟨hp.length_eq, hsort⟩, hsort⟩

/-- C5 witness: two states with swapped container order are canonically
equal and share the hash key. -/
theorem spec_C5_witness :
    WSPState.eq (WSPState.mk [["r"], ["b"]] 4) (WSPState.mk [["b"], ["r"]] 4) = true ∧
      (WSPState.mk [["r"], ["b"]] 4).hash_key = (WSPState.mk [["b"], ["r"]] 4).hash_key :=
  (spec_C5 (WSPState.mk [["r"], ["b"]] 4) (WSPState.mk [["b"], ["r"]] 4)).2.2
    (List.Perm.swap ["b"] ["r"] [])

/-- The enumeration order of the source's action loops: source index
ascending, then destination index ascending. -/
def actLT (a b : WSPAction) : Prop :=
  a.from_tube < b.from_tube ∨ (a.from_tube = b.from_tube ∧ a.to_tube < b.to_tube)

/-- The inner conditional of `get_possible_actions`, characterized. -/
lemma mem_inner (s : WSPState) (fi ti : Nat) (b : WSPAction) :
    (if fi = ti then none
     else if s.is_valid_action ⟨(fi : Int), (ti : Int)⟩
       then some (⟨(fi : Int), (ti : Int)⟩ : WSPAction) else none) = some b
    ↔ (fi ≠ ti ∧ s.is_valid_action b = true ∧ b = ⟨(fi : Int), (ti : Int)⟩) := by
  split_ifs with h1 h2
  · simp [h1]
  · constructor
    · intro hb
      have hb' := Option.some.inj hb
      exact ⟨h1, by rw [← hb']; exact h2, hb'.symm⟩
    · rintro ⟨-, -, rfl⟩
      rfl
  · refine iff_of_false (by simp) ?_
    rintro ⟨-, hv, rfl⟩
    exact h2 hv

/-- The enumerated actions come out sorted by source index, then by
destination index. -/
lemma pairwise_get_possible_actions (s : WSPState) :
    s.get_possible_actions.Pairwise actLT := by
  unfold WSPState.get_possible_actions
  rw [List.pairwise_flatMap]
  constructor
  · intro fi hfi
    rw [List.pairwise_filterMap]
    refine List.Pairwise.imp ?_ (List.pairwise_lt_range _)
    intro ti ti' hlt b hb b' hb'
    rw [Option.mem_def] at hb hb'
    dsimp only at hb hb'
    rw [mem_inner] at hb hb'
    obtain ⟨-, -, rfl⟩ := hb
    obtain ⟨-, -, rfl⟩ := hb'
    exact Or.inr ⟨rfl, by show (ti : Int) < (ti' : Int); exact_mod_cast hlt⟩
  · refine List.Pairwise.imp ?_ (List.pairwise_lt_range _)
    intro fi fi' hlt x hx y hy
    rw [List.mem_filterMap] at hx hy
    obtain ⟨ti, -, hsome⟩ := hx
    obtain ⟨ti', -, hsome'⟩ := hy
    dsimp only at hsome hsome'
    rw [mem_inner] at hsome hsome'
    obtain ⟨-, -, rfl⟩ := hsome
    obtain ⟨-, -, rfl⟩ := hsome'
    exact Or.inl (by show (fi : Int) < (fi' : Int); exact_mod_cast hlt)

/-- Membership characterization of the enumeration: exactly the valid
actions with distinct indices. -/
lemma mem_get_possible_actions (s : WSPState) (a : WSPAction) :
    a ∈ s.get_possible_actions ↔
      (a.from_tube ≠ a.to_tube ∧ s.is_valid_action a = true) := by
  unfold WSPState.get_possible_actions
  rw [List.mem_flatMap]
  constructor
  · rintro ⟨fi, hfi, hmem⟩
    rw [List.mem_filterMap] at hmem
    obtain ⟨ti, hti, hsome⟩ := hmem
    dsimp only at hsome
    rw [mem_inner] at hsome
    obtain ⟨hne, hv, rfl⟩ := hsome
    exact ⟨by simpa using fun hx => hne (by exact_mod_cast hx), hv⟩
  · rintro ⟨hne, hv⟩
    obtain ⟨hv1, hv2, hv3, hv4, -, -, -⟩ := (WSPState.is_valid_action_iff s a).mp hv
    have ha : (⟨((a.from_tube.toNat : Nat) : Int), ((a.to_tube.toNat : Nat) : Int)⟩ :
        WSPAction) = a := by
      cases a
      simp only [WSPAction.mk.injEq]
      exact ⟨Int.toNat_of_nonneg hv1, Int.toNat_of_nonneg hv3⟩
    refine ⟨a.from_tube.toNat, by rw [List.mem_range]; omega, ?_⟩
    rw [List.mem_filterMap]
    refine ⟨a.to_tube.toNat, by rw [List.mem_range]; omega, ?_⟩
    dsimp only
    rw [mem_inner]
    refine ⟨by omega, hv, ha.symm⟩

/-- C9: `get_possible_actions` contains exactly the actions on ordered pairs
of distinct container indices that pass `is_valid_action` (each exactly
once), and the list is ordered by source index ascending, then destination
index ascending. -/
theorem spec_C9 (s : WSPState) :
    (∀ a : WSPAction, a ∈ s.get_possible_actions ↔
      (a.from_tube ≠ a.to_tube ∧ s.is_valid_action a = true)) ∧
    s.get_possible_actions.Pairwise actLT ∧
    s.get_possible_actions.Nodup := by
  refine ⟨mem_get_possible_actions s, pairwise_get_possible_actions s,
    (pairwise_get_possible_actions s).imp ?_⟩
  intro a b hab
  rintro rfl
  rcases hab with h | ⟨-, h⟩ <;> omega

/-- C9 witness: a concrete membership derived from the characterization. -/
theorem spec_C9_witness :
    (⟨0, 1⟩ : WSPAction) ∈ (WSPState.mk [["r"], []] 4).get_possible_actions :=
  ((spec_C9 (WSPState.mk [["r"], []] 4)).1 ⟨0, 1⟩).mpr (by decide)

/-! ## The depth-first search engine (source `dfs.py`) -/

/-- The abstract state/action contract the engine depends on (source
`graph_base.State`): enumeration of the currently legal actions, the goal
test, action application (the engine only ever applies enumerated actions,
which never raise, so application is total here), and the value equality
used by the visited set. -/
structure GraphOps (S A : Type) where
  actions : S → List A
  is_goal : S → Bool
  apply : S → A → S
  stEq : S → S → Bool

/-- A finished search: the returned Boolean, the visited collection and the
path buffer of `(state, incoming action)` pairs, as left by `_dfs`. -/
abbrev SearchResult (S A : Type) := Bool × List S × List (S × Option A)

/-- The action loop of source `DFSSearcher._dfs` (its `for` over
`get_possible_actions`), parameterized by the recursive call `f` (already
applied to the child depth): try each action in order, threading the
mutable visited collection and path buffer through the recursive calls;
propagate the first success immediately; after exhausting all actions, pop
the entry that the enclosing `_dfs` invocation pushed. -/
def dfsLoop {S A : Type} (ops : GraphOps S A)
    (f : S → Option A → List S → List (S × Option A) → Option (SearchResult S A)) :
    List A → S → List S → List (S × Option A) → Option (SearchResult S A)
  | [], _, visited, path => some (false, visited, path.dropLast)
  | a :: rest, st, visited, path =>
    match f (ops.apply st a) (some a) visited path with
    | none => none
    | some (true, v, p) => some (true, v, p)
    | some (false, v, p) => dfsLoop ops f rest st v p

/-- Source `DFSSearcher._dfs`, with the mutable engine state passed
explicitly and a fuel argument.  `maxDepth` is the Python `max_depth`
parameter (negative means unbounded).  A visited state is skipped; otherwise
the state is marked visited and pushed (with its incoming action) onto the
path buffer; a goal ends the search with the buffer as is; at the depth
bound the pushed entry is popped and the branch fails; otherwise the action
loop runs at depth+1.  Running out of fuel gives `none`. -/
def dfsGo {S A : Type} (ops : GraphOps S A) (maxDepth : Int) :
    Nat → S → Option A → Nat → List S → List (S × Option A) →
      Option (SearchResult S A)
  | 0, _, _, _, _, _ => none
  | fuel + 1, st, act, depth, visited, path =>
    if visited.any (fun v => ops.stEq v st) then some (false, visited, path)
    else if ops.is_goal st then some (true, st :: visited, path ++ [(st, act)])
    else if 0 ≤ maxDepth ∧ maxDepth ≤ (depth : Int) then
      some (false, st :: visited, (path ++ [(st, act)]).dropLast)
    else
      dfsLoop ops (fun s a v p => dfsGo ops maxDepth fuel s a (depth + 1) v p)
        (ops.actions st) st (st :: visited) (path ++ [(st, act)])

/-- Source `DFSSearcher.search`: clear the visited set and the path buffer,
then run `_dfs` on the initial state with no incoming action at depth 0. -/
def searchDFS {S A : Type} (ops : GraphOps S A) (init : S) (maxDepth : Int)
    (fuel : Nat) : Option (SearchResult S A) :=
  dfsGo ops maxDepth fuel init none 0 [] []

/-- The states reachable from `init` by at most `n` enumerated actions. -/
def reachList {S A : Type} (ops : GraphOps S A) (init : S) : Nat → List S
  | 0 => [init]
  | n + 1 =>
    reachList ops init n ++
      (reachList ops init n).flatMap (fun s => (ops.actions s).map (ops.apply s))

/-- The successor relation along path entries: the second entry carries an
enumerated action of the first entry's state, and applying it yields the
second entry's state. -/
def stepRel {S A : Type} (ops : GraphOps S A) :
    (S × Option A) → (S × Option A) → Prop :=
  fun e1 e2 => ∃ a, e2.2 = some a ∧ a ∈ ops.actions e1.1 ∧ ops.apply e1.1 a = e2.1

/-- The engine instantiated at the puzzle: enumerated actions are always
valid, so `apply` is the value of `apply_action` (with an irrelevant default
for the unreachable error case); the visited set membership test is the
canonical state equality. -/
def wspOps : GraphOps WSPState WSPAction where
  actions := WSPState.get_possible_actions
  is_goal := WSPState.is_goal
  apply := fun s a => (s.apply_action a).getD s
  stEq := WSPState.eq

/-- A full search of the puzzle solver: `DFSSearcher(initial_state).search
(max_depth)`, with fuel. -/
def wspSearch (init : WSPState) (maxDepth : Int) (fuel : Nat) :
    Option (SearchResult WSPState WSPAction) :=
  searchDFS wspOps init maxDepth fuel

section EngineLemmas

variable {S A : Type}

lemma dropLast_append_single (l : List (S × Option A)) (e : S × Option A) :
    (l ++ [e]).dropLast = l := by simp

/-- A failing action loop restores the path buffer to its state before the
enclosing `_dfs` pushed its entry (i.e. it pops that entry). -/
lemma dfsLoop_false (ops : GraphOps S A)
    (f : S → Option A → List S → List (S × Option A) → Option (SearchResult S A))
    (hf : ∀ s oa v p v' p', f s oa v p = some (false, v', p') → p' = p) :
    ∀ (acts : List A) (st : S) (visited : List S) (path : List (S × Option A))
      (v' : List S) (p' : List (S × Option A)),
      dfsLoop ops f acts st visited path = some (false, v', p') →
      p' = path.dropLast := by
  intro acts
  induction acts with
  | nil =>
    intro st visited path v' p' h
    simp only [dfsLoop, Option.some.injEq, Prod.mk.injEq] at h
    exact h.2.2.symm
  | cons a rest ih =>
    intro st visited path v' p' h
    simp only [dfsLoop] at h
    cases hf0 : f (ops.apply st a) (some a) visited path with
    | none => rw [hf0] at h; simp at h
    | some r =>
      obtain ⟨b, v0, p0⟩ := r
      rw [hf0] at h
      cases b with
      | true => simp at h
      | false =>
        dsimp only at h
        have hrec := ih st v0 p0 v' p' h
        rw [hrec, hf _ _ _ _ _ _ hf0]

/-- A failing `_dfs` call leaves the path buffer exactly as it found it. -/
lemma dfsGo_false (ops : GraphOps S A) (maxDepth : Int) :
    ∀ (fuel : Nat) (st : S) (act : Option A) (depth : Nat) (visited : List S)
      (path : List (S × Option A)) (v' : List S) (p' : List (S × Option A)),
      dfsGo ops maxDepth fuel st act depth visited path = some (false, v', p') →
      p' = path := by
  intro fuel
  induction fuel with
  | zero =>
    intro st act depth visited path v' p' h
    simp [dfsGo] at h
  | succ fuel ih =>
    intro st act depth visited path v' p' h
    simp only [dfsGo] at h
    split_ifs at h with h1 h2 h3
    · simp only [Option.some.injEq, Prod.mk.injEq] at h
      exact h.2.2.symm
    · simp at h
    · simp only [Option.some.injEq, Prod.mk.injEq] at h
      rw [← h.2.2, dropLast_append_single]
    · have := dfsLoop_false ops _
        (fun s oa v p v'' p'' hh => ih s oa (depth + 1) v p v'' p'' hh)
        (ops.actions st) st (st :: visited) (path ++ [(st, act)]) v' p' h
      rw [this, dropLast_append_single]

/-- A successful action loop extends the path with a chain of successor
entries starting from one of the given actions and ending at a goal. -/
lemma dfsLoop_true (ops : GraphOps S A)
    (f : S → Option A → List S → List (S × Option A) → Option (SearchResult S A))
    (hf_false : ∀ s oa v p v' p', f s oa v p = some (false, v', p') → p' = p)
    (hf_true : ∀ s oa v p v' p', f s oa v p = some (true, v', p') →
      ∃ q, p' = p ++ (s, oa) :: q ∧ List.Chain' (stepRel ops) ((s, oa) :: q) ∧
        ∃ e, ((s, oa) :: q).getLast? = some e ∧ ops.is_goal e.1 = true) :
    ∀ (acts : List A) (st : S) (visited : List S) (path : List (S × Option A))
      (v' : List S) (p' : List (S × Option A)),
      dfsLoop ops f acts st visited path = some (true, v', p') →
      ∃ a, a ∈ acts ∧ ∃ q,
        p' = path ++ (ops.apply st a, some a) :: q ∧
        List.Chain' (stepRel ops) ((ops.apply st a, some a) :: q) ∧
        ∃ e, ((ops.apply st a, some a) :: q).getLast? = some e ∧
          ops.is_goal e.1 = true := by
  intro acts
  induction acts with
  | nil =>
    intro st visited path v' p' h
    simp [dfsLoop] at h
  | cons a rest ih =>
    intro st visited path v' p' h
    simp only [dfsLoop] at h
    cases hf0 : f (ops.apply st a) (some a) visited path with
    | none => rw [hf0] at h; simp at h
    | some r =>
      obtain ⟨b, v0, p0⟩ := r
      rw [hf0] at h
      cases b with
      | true =>
        dsimp only at h
        simp only [Option.some.injEq, Prod.mk.injEq] at h
        obtain ⟨q, hp, hchain, hlast⟩ := hf_true _ _ _ _ _ _ hf0
        exact ⟨a, List.mem_cons_self a rest, q, by rw [← h.2.2, hp], hchain, hlast⟩
      | false =>
        dsimp only at h
        obtain ⟨a', ha', q, hp, hchain, hlast⟩ := ih st v0 p0 v' p' h
        rw [hf_false _ _ _ _ _ _ hf0] at hp
        exact ⟨a', List.mem_cons_of_mem a ha', q, hp, hchain, hlast⟩

/-- A successful `_dfs` call appends to the path buffer its own entry
followed by a `stepRel`-chain whose last state is a goal. -/
lemma dfsGo_true (ops : GraphOps S A) (maxDepth : Int) :
    ∀ (fuel : Nat) (st : S) (act : Option A) (depth : Nat) (visited : List S)
      (path : List (S × Option A)) (v' : List S) (p' : List (S × Option A)),
      dfsGo ops maxDepth fuel st act depth visited path = some (true, v', p') →
      ∃ q, p' = path ++ (st, act) :: q ∧
        List.Chain' (stepRel ops) ((st, act) :: q) ∧
        ∃ e, ((st, act) :: q).getLast? = some e ∧ ops.is_goal e.1 = true := by
  intro fuel
  induction fuel with
  | zero =>
    intro st act depth visited path v' p' h
    simp [dfsGo] at h
  | succ fuel ih =>
    intro st act depth visited path v' p' h
    simp only [dfsGo] at h
    split_ifs at h with h1 h2 h3
    · simp at h
    · simp only [Option.some.injEq, Prod.mk.injEq] at h
      refine ⟨[], by rw [← h.2.2], List.chain'_singleton _, (st, act), rfl, h2⟩
    · simp at h
    · obtain ⟨a, ha, q, hp, hchain, e, hlast, hgoal⟩ := dfsLoop_true ops _
        (fun s oa v p v'' p'' hh => dfsGo_false ops maxDepth fuel s oa (depth + 1) v p v'' p'' hh)
        (fun s oa v p v'' p'' hh => ih s oa (depth + 1) v p v'' p'' hh)
        (ops.actions st) st (st :: visited) (path ++ [(st, act)]) v' p' h
      refine ⟨(ops.apply st a, some a) :: q, ?_, ?_, ?_⟩
      · rw [hp]; simp
      · rw [List.chain'_cons]
        exact ⟨⟨a, rfl, ha, rfl⟩, hchain⟩
      · refine ⟨e, ?_, hgoal⟩
        rw [List.getLast?_cons_cons]
        exact hlast

/-- The action loop never grows the path beyond what its children return
(with the pushed entry popped at the end of an exhausted loop). -/
lemma dfsLoop_len (ops : GraphOps S A)
    (f : S → Option A → List S → List (S × Option A) → Option (SearchResult S A))
    (bound : Nat)
    (hf_false : ∀ s oa v p v' p', f s oa v p = some (false, v', p') → p' = p) :
    ∀ (acts : List A) (st : S) (visited : List S) (path : List (S × Option A))
      (b : Bool) (v' : List S) (p' : List (S × Option A)),
      (∀ s oa v b' v'' p'', f s oa v path = some (b', v'', p'') →
        p''.length ≤ bound) →
      path.dropLast.length ≤ bound →
      dfsLoop ops f acts st visited path = some (b, v', p') →
      p'.length ≤ bound := by
  intro acts
  induction acts with
  | nil =>
    intro st visited path b v' p' hf_len hdrop h
    simp only [dfsLoop, Option.some.injEq, Prod.mk.injEq] at h
    rw [← h.2.2]
    exact hdrop
  | cons a rest ih =>
    intro st visited path b v' p' hf_len hdrop h
    simp only [dfsLoop] at h
    cases hf0 : f (ops.apply st a) (some a) visited path with
    | none => rw [hf0] at h; simp at h
    | some r =>
      obtain ⟨b0, v0, p0⟩ := r
      rw [hf0] at h
      cases b0 with
      | true =>
        dsimp only at h
        simp only [Option.some.injEq, Prod.mk.injEq] at h
        rw [← h.2.2]
        exact hf_len _ _ _ _ _ _ hf0
      | false =>
        dsimp only at h
        have hp0 : p0 = path := hf_false _ _ _ _ _ _ hf0
        rw [hp0] at h
        exact ih st v0 path b v' p' hf_len hdrop h

/-- With a non-negative depth bound `k`, a `_dfs` call whose pushed path
would have length `depth + 1 ≤ k + 1` never returns a longer path. -/
lemma dfsGo_len (ops : GraphOps S A) (k : Nat) :
    ∀ (fuel : Nat) (st : S) (act : Option A) (depth : Nat) (visited : List S)
      (path : List (S × Option A)) (b : Bool) (v' : List S)
      (p' : List (S × Option A)),
      dfsGo ops (k : Int) fuel st act depth visited path = some (b, v', p') →
      depth ≤ k → path.length = depth → p'.length ≤ k + 1 := by
  intro fuel
  induction fuel with
  | zero =>
    intro st act depth visited path b v' p' h
    simp [dfsGo] at h
  | succ fuel ih =>
    intro st act depth visited path b v' p' h hdep hpath
    simp only [dfsGo] at h
    split_ifs at h with h1 h2 h3
    · simp only [Option.some.injEq, Prod.mk.injEq] at h
      rw [← h.2.2]
      omega
    · simp only [Option.some.injEq, Prod.mk.injEq] at h
      rw [← h.2.2, List.length_append]
      simp
      omega
    · simp only [Option.some.injEq, Prod.mk.injEq] at h
      rw [← h.2.2, dropLast_append_single]
      omega
    · have hdk : depth < k := by
        by_contra hc
        exact h3 ⟨by omega, by omega⟩
      refine dfsLoop_len ops _ (k + 1)
        (fun s oa v p v'' p'' hh => dfsGo_false ops (k : Int) fuel s oa (depth + 1) v p v'' p'' hh)
        (ops.actions st) st (st :: visited) (path ++ [(st, act)]) b v' p'
        (fun s oa v b' v'' p'' hh =>
          ih s oa (depth + 1) v (path ++ [(st, act)]) b' v'' p'' hh (by omega)
            (by rw [List.length_append]; simp; omega))
        (by rw [dropLast_append_single]; omega) h

lemma reachList_subset (ops : GraphOps S A) (init : S) {n m : Nat} (h : n ≤ m) :
    ∀ s, s ∈ reachList ops init n → s ∈ reachList ops init m := by
  induction m with
  | zero =>
    have : n = 0 := by omega
    subst this
    exact fun s hs => hs
  | succ m ih =>
    intro s hs
    by_cases hnm : n = m + 1
    · subst hnm; exact hs
    · rw [reachList]
      exact List.mem_append_left _ (ih (by omega) s hs)

lemma reachList_step (ops : GraphOps S A) (init : S) (n : Nat) (s : S) (a : A)
    (hs : s ∈ reachList ops init n) (ha : a ∈ ops.actions s) :
    ops.apply s a ∈ reachList ops init (n + 1) := by
  rw [reachList]
  refine List.mem_append_right _ ?_
  rw [List.mem_flatMap]
  exact ⟨s, hs, List.mem_map.mpr ⟨a, ha, rfl⟩⟩

/-- If every child call fails, the loop fails. -/
lemma dfsLoop_nogoal (ops : GraphOps S A)
    (f : S → Option A → List S → List (S × Option A) → Option (SearchResult S A)) :
    ∀ (acts : List A) (st : S) (visited : List S) (path : List (S × Option A))
      (b : Bool) (v' : List S) (p' : List (S × Option A)),
      (∀ a ∈ acts, ∀ v p b' v'' p'',
        f (ops.apply st a) (some a) v p = some (b', v'', p'') → b' = false) →
      dfsLoop ops f acts st visited path = some (b, v', p') →
      b = false := by
  intro acts
  induction acts with
  | nil =>
    intro st visited path b v' p' hf h
    simp only [dfsLoop, Option.some.injEq, Prod.mk.injEq] at h
    exact h.1.symm
  | cons a rest ih =>
    intro st visited path b v' p' hf h
    simp only [dfsLoop] at h
    cases hf0 : f (ops.apply st a) (some a) visited path with
    | none => rw [hf0] at h; simp at h
    | some r =>
      obtain ⟨b0, v0, p0⟩ := r
      rw [hf0] at h
      cases b0 with
      | true =>
        exact absurd (hf a (List.mem_cons_self a rest) _ _ _ _ _ hf0) (by simp)
      | false =>
        dsimp only at h
        exact ih st v0 p0 b v' p' (fun a' ha' => hf a' (List.mem_cons_of_mem a ha')) h

/-- With depth bound `k`, if no state reachable within `k` steps is a goal,
then `_dfs` started at a state reachable in `depth ≤ k` steps fails. -/
lemma dfsGo_nogoal (ops : GraphOps S A) (init : S) (k : Nat)
    (hng : ∀ s ∈ reachList ops init k, ops.is_goal s = false) :
    ∀ (fuel : Nat) (st : S) (act : Option A) (depth : Nat) (visited : List S)
      (path : List (S × Option A)) (b : Bool) (v' : List S)
      (p' : List (S × Option A)),
      dfsGo ops (k : Int) fuel st act depth visited path = some (b, v', p') →
      st ∈ reachList ops init depth → depth ≤ k → b = false := by
  intro fuel
  induction fuel with
  | zero =>
    intro st act depth visited path b v' p' h
    simp [dfsGo] at h
  | succ fuel ih =>
    intro st act depth visited path b v' p' h hst hdep
    simp only [dfsGo] at h
    split_ifs at h with h1 h2 h3
    · simp only [Option.some.injEq, Prod.mk.injEq] at h
      exact h.1.symm
    · exact absurd (hng st (reachList_subset ops init hdep st hst)) (by simp [h2])
    · simp only [Option.some.injEq, Prod.mk.injEq] at h
      exact h.1.symm
    · have hdk : depth < k := by
        by_contra hc
        exact h3 ⟨by omega, by omega⟩
      exact dfsLoop_nogoal ops _ (ops.actions st) st (st :: visited)
        (path ++ [(st, act)]) b v' p'
        (fun a ha v p b' v'' p'' hh =>
          ih (ops.apply st a) (some a) (depth + 1) v p b' v'' p'' hh
            (reachList_step ops init depth st a hst ha) (by omega)) h

end EngineLemmas

namespace WSPState

/-- A valid action never raises: `apply_action` returns a state. -/
lemma apply_action_eq_some (s : WSPState) (a : WSPAction)
    (hv : s.is_valid_action a = true) : ∃ s', s.apply_action a = some s' := by
  unfold apply_action
  rw [if_pos hv]
  dsimp only
  split <;> exact ⟨_, rfl⟩

end WSPState

/-- The successor property claimed for consecutive path entries:
`state_i.apply_action(action_{i+1}) == state_{i+1}` (with `==` the canonical
state equality of the source). -/
def wspStep (e1 e2 : WSPState × Option WSPAction) : Prop :=
  ∃ a, e2.2 = some a ∧
    ∃ s', e1.1.apply_action a = some s' ∧ WSPState.eq s' e2.1 = true

lemma stepRel_imp_wspStep {e1 e2 : WSPState × Option WSPAction}
    (h : stepRel wspOps e1 e2) : wspStep e1 e2 := by
  obtain ⟨a, h2, hmem, happ⟩ := h
  have hv := ((mem_get_possible_actions e1.1 a).mp hmem).2
  obtain ⟨s', hs'⟩ := WSPState.apply_action_eq_some e1.1 a hv
  refine ⟨a, h2, s', hs', ?_⟩
  have hws : wspOps.apply e1.1 a = s' := by
    show (e1.1.apply_action a).getD e1.1 = s'
    rw [hs']
    rfl
  rw [← happ, hws]
  exact WSPState.eq_self s'

/-- C1: whenever a `search` call completes, it returns `true` iff the path
buffer ends at a goal (equivalently, iff a goal state was reached); on
`true` the first path entry has no incoming action, the last entry's state
satisfies `is_goal`, and every consecutive pair of entries is related by
`apply_action` up to canonical equality; on `false` the path buffer is
empty. -/
theorem spec_C1 (init : WSPState) (maxDepth : Int) (fuel : Nat) (b : Bool)
    (v : List WSPState) (p : List (WSPState × Option WSPAction))
    (h : wspSearch init maxDepth fuel = some (b, v, p)) :
    (b = true ↔ ∃ e ∈ p, e.1.is_goal = true) ∧
    (b = true →
      (∃ e, p.head? = some e ∧ e.2 = none) ∧
      (∃ e, p.getLast? = some e ∧ e.1.is_goal = true) ∧
      List.Chain' wspStep p) ∧
    (b = false → p = []) := by
  cases b with
  | false =>
    have hp : p = [] := dfsGo_false wspOps maxDepth fuel init none 0 [] [] v p h
    subst hp
    refine ⟨by simp, ?_, fun _ => rfl⟩
    intro hcon
    exact absurd hcon (by simp)
  | true =>
    obtain ⟨q, hp, hchain, e, hlast, hgoal⟩ :=
      dfsGo_true wspOps maxDepth fuel init none 0 [] [] v p h
    rw [List.nil_append] at hp
    subst hp
    refine ⟨⟨fun _ => ⟨e, List.mem_of_getLast?_eq_some hlast, hgoal⟩, fun _ => rfl⟩,
      fun _ => ⟨⟨(init, none), rfl, rfl⟩, ⟨e, hlast, hgoal⟩,
        hchain.imp (fun _ _ hst => stepRel_imp_wspStep hst)⟩,
      ?_⟩
    intro hcon
    exact absurd hcon (by simp)

/-- C1 witness: the search on `[[r, r, r], [r]]` (capacity 4) that finds the
goal in one pour. -/
theorem spec_C1_witness :
    (true = true ↔
      ∃ e ∈ [((WSPState.mk [["r", "r", "r"], ["r"]] 4 : WSPState),
                (none : Option WSPAction)),
              (WSPState.mk [[], ["r", "r", "r", "r"]] 4, some ⟨0, 1⟩)],
        e.1.is_goal = true) ∧
    (true = true →
      (∃ e, ([((WSPState.mk [["r", "r", "r"], ["r"]] 4 : WSPState),
                (none : Option WSPAction)),
              (WSPState.mk [[], ["r", "r", "r", "r"]] 4, some ⟨0, 1⟩)]).head?
          = some e ∧ e.2 = none) ∧
      (∃ e, ([((WSPState.mk [["r", "r", "r"], ["r"]] 4 : WSPState),
                (none : Option WSPAction)),
              (WSPState.mk [[], ["r", "r", "r", "r"]] 4, some ⟨0, 1⟩)]).getLast?
          = some e ∧ e.1.is_goal = true) ∧
      List.Chain' wspStep
        [((WSPState.mk [["r", "r", "r"], ["r"]] 4 : WSPState),
            (none : Option WSPAction)),
          (WSPState.mk [[], ["r", "r", "r", "r"]] 4, some ⟨0, 1⟩)]) ∧
    (true = false →
      ([((WSPState.mk [["r", "r", "r"], ["r"]] 4 : WSPState),
          (none : Option WSPAction)),
        (WSPState.mk [[], ["r", "r", "r", "r"]] 4, some ⟨0, 1⟩)]
        : List (WSPState × Option WSPAction)) = []) :=
  spec_C1 (WSPState.mk [["r", "r", "r"], ["r"]] 4) (-1) 2 true
    [WSPState.mk [[], ["r", "r", "r", "r"]] 4,
     WSPState.mk [["r", "r", "r"], ["r"]] 4]
    [(WSPState.mk [["r", "r", "r"], ["r"]] 4, none),
     (WSPState.mk [[], ["r", "r", "r", "r"]] 4, some ⟨0, 1⟩)]
    (by decide)

/-- C6: whenever `search(max_depth = k)` completes, the returned path buffer
has at most `k + 1` entries; and if no state reachable from the initial
state within `k` enumerated moves is a goal (i.e. every reachable goal lies
at depth `k + 1` or more), the search returns `false`. -/
theorem spec_C6 (init : WSPState) (k : Nat) (fuel : Nat) (b : Bool)
    (v : List WSPState) (p : List (WSPState × Option WSPAction))
    (h : wspSearch init (k : Int) fuel = some (b, v, p)) :
    p.length ≤ k + 1 ∧
    ((∀ s ∈ reachList wspOps init k, s.is_goal = false) → b = false) := by
  constructor
  · exact dfsGo_len wspOps k fuel init none 0 [] [] b v p h (Nat.zero_le k) rfl
  · intro hng
    exact dfsGo_nogoal wspOps init k hng fuel init none 0 [] [] b v p h
      (by rw [reachList]; exact List.mem_singleton_self init) (Nat.zero_le k)

/-- C6 witness: with `max_depth = 0` on `[[r], []]`, whose only goal lies
deeper than depth 0, the search stops at once with an empty path. -/
theorem spec_C6_witness :
    ([] : List (WSPState × Option WSPAction)).length ≤ 0 + 1 ∧
      ((∀ s ∈ reachList wspOps (WSPState.mk [["r"], []] 4) 0, s.is_goal = false) →
        false = false) :=
  spec_C6 (WSPState.mk [["r"], []] 4) 0 2 false [WSPState.mk [["r"], []] 4] []
    (by decide)
